import Mathlib

/-!
Shallow embedding of the filtration-pair builder of `test_oineus.py` from
TopologicalMaterialAnalysis: the partition of a weighted simplicial
filtration into the sub-complex part `L` and the remainder `not_L`, the
concatenation into the re-ordered complex `K`, and the positional
filtration-id assignment.  Weights are carried as an abstract type `W`
(the script stores a float alongside each sorted vertex list).
-/

namespace Oineus

universe u

variable {W : Type u}

/-- Error taxonomy of the builder.  `InvalidVertex` is how the script
surfaces an out-of-range access `sub[v]`; `LengthMismatch` is the input
length check of the `build_pair` entry point. -/
inductive BuildError where
  | LengthMismatch
  | InvalidVertex
deriving DecidableEq

/-- Single-vertex branch of the source: classify by `sub[s[0][0]] == True`;
an out-of-range vertex id aborts. -/
def singleVertexBranch (sub : List Bool) (v : ℕ) : Except BuildError Bool :=
  match sub.get? v with
  | none => .error .InvalidVertex
  | some b => .ok (b == true)

/-- General branch of the source: loop over the vertices, set the flag to
`False` and break at the first vertex with `sub[v] == False`; an
out-of-range access before that aborts. -/
def generalBranch (sub : List Bool) : List ℕ → Except BuildError Bool
  | [] => .ok true
  | v :: vs =>
    match sub.get? v with
    | none => .error .InvalidVertex
    | some b => if b == false then .ok false else generalBranch sub vs

/-- The dimension split of the source: `len(s[0]) == 1` routes to the
single-vertex branch, everything else to the general loop. -/
def classifySimplex (sub : List Bool) : List ℕ → Except BuildError Bool
  | [v] => singleVertexBranch sub v
  | vs => generalBranch sub vs

/-- The `L` / `not_L` partition loop over the filtration entries (a sorted
vertex list paired with its weight), in filtration order. -/
def partitionSimplices (sub : List Bool) :
    List (List ℕ × W) → Except BuildError (List (List ℕ × W) × List (List ℕ × W))
  | [] => .ok ([], [])
  | s :: rest =>
    match classifySimplex sub s.1 with
    | .error e => .error e
    | .ok c =>
      match partitionSimplices sub rest with
      | .error e => .error e
      | .ok (l, notL) => if c then .ok (s :: l, notL) else .ok (l, s :: notL)

/-- The `K` concatenation loop of the source: all entries of `L` first,
then all entries of `not_L`. -/
def buildK (l notL : List (List ℕ × W)) : List (List ℕ × W) := l ++ notL

/-- Positional filtration-id assignment
`[[i, s[0], s[1]] for i, s in enumerate(xs)]`. -/
def indexFiltration (xs : List (List ℕ × W)) : List (ℕ × (List ℕ × W)) :=
  xs.enum

/-- Modelled from the spec: the `build_pair(simplices, weights, is_member)`
entry point with separate simplex and weight sequences, and its
`LengthMismatch` check, do not appear in the script (which stores each
weight inside its simplex entry); they follow the spec's words.  The
partition, concatenation and id assignment it invokes are embedded from
the source. -/
def build_pair (simplices : List (List ℕ)) (weights : List W) (sub : List Bool) :
    Except BuildError (List (ℕ × (List ℕ × W)) × List (ℕ × (List ℕ × W))) :=
  if simplices.length = weights.length then
    match partitionSimplices sub (simplices.zip weights) with
    | .error e => .error e
    | .ok (l, notL) => .ok (indexFiltration l, indexFiltration (buildK l notL))
  else .error .LengthMismatch

/-- Specification-level membership test: every vertex id of the simplex
resolves in `sub` and satisfies the predicate. -/
def allVerticesIn (sub : List Bool) (vs : List ℕ) : Bool :=
  vs.all fun v => sub.get? v == some true

/-- Two vertex lists carry the same set of vertex ids. -/
def sameSet (u f : List ℕ) : Prop := (∀ x ∈ u, x ∈ f) ∧ (∀ x ∈ f, x ∈ u)

instance decSameSet (u f : List ℕ) : Decidable (sameSet u f) :=
  decidable_of_iff ((∀ x ∈ u, x ∈ f) ∧ ∀ x ∈ f, x ∈ u) Iff.rfl

/-- `f` is a nonempty proper face of the simplex with vertex list `s`:
its vertices are contained in `s` without exhausting it. -/
def properFace (f s : List ℕ) : Prop :=
  f ≠ [] ∧ (∀ x ∈ f, x ∈ s) ∧ ¬ ∀ x ∈ s, x ∈ f

instance decProperFace (f s : List ℕ) : Decidable (properFace f s) :=
  decidable_of_iff (f ≠ [] ∧ (∀ x ∈ f, x ∈ s) ∧ ¬ ∀ x ∈ s, x ∈ f) Iff.rfl

/-- Every nonempty proper face of `vs` occurs, as a vertex set, among the
already-seen vertex lists. -/
def facesOK (seen : List (List ℕ)) (vs : List ℕ) : Prop :=
  ∀ f ∈ vs.sublists, properFace f vs → ∃ u ∈ seen, sameSet u f

instance decFacesOK (seen : List (List ℕ)) (vs : List ℕ) : Decidable (facesOK seen vs) :=
  decidable_of_iff (∀ f ∈ vs.sublists, properFace f vs → ∃ u ∈ seen, sameSet u f) Iff.rfl

/-- Closure invariant of a filtration tail, relative to the vertex lists
already seen: every entry's nonempty proper faces appear earlier. -/
def closedFrom (seen : List (List ℕ)) : List (List ℕ × W) → Prop
  | [] => True
  | s :: rest => facesOK seen s.1 ∧ closedFrom (s.1 :: seen) rest

instance decClosedFrom (seen : List (List ℕ)) :
    (xs : List (List ℕ × W)) → Decidable (closedFrom seen xs)
  | [] => isTrue trivial
  | s :: rest => @instDecidableAnd _ _ (decFacesOK seen s.1) (decClosedFrom (s.1 :: seen) rest)

/-- Closure invariant of a filtration: every nonempty proper face of every
simplex appears, as a vertex set, strictly earlier in the sequence. -/
def closureInv (xs : List (List ℕ × W)) : Prop := closedFrom [] xs

instance decClosureInv (xs : List (List ℕ × W)) : Decidable (closureInv xs) :=
  decClosedFrom [] xs

/-- The vertex set `f` occurs among the seen vertex lists. -/
def present (seen : List (List ℕ)) (f : List ℕ) : Prop :=
  ∃ u ∈ seen, sameSet u f

/-- The dimension split is semantically superfluous: the single-vertex
branch agrees with the general loop on singletons. -/
theorem classifySimplex_eq_generalBranch (sub : List Bool) (vs : List ℕ) :
    classifySimplex sub vs = generalBranch sub vs := by
  match vs with
  | [] => rfl
  | [v] =>
    show singleVertexBranch sub v = generalBranch sub [v]
    simp only [singleVertexBranch, generalBranch]
    cases h : sub.get? v with
    | none => rfl
    | some b => cases b <;> rfl
  | a :: b :: t => rfl

/-- A successful run of the general loop returns exactly the all-vertices
membership test. -/
theorem generalBranch_ok (sub : List Bool) :
    ∀ vs c, generalBranch sub vs = .ok c → c = allVerticesIn sub vs := by
  intro vs
  induction vs with
  | nil =>
    intro c h
    simp only [generalBranch, Except.ok.injEq] at h
    simp [allVerticesIn, ← h]
  | cons v tl ih =>
    intro c h
    simp only [generalBranch] at h
    cases hg : sub.get? v with
    | none => rw [hg] at h; exact absurd h (by simp)
    | some b =>
      rw [hg] at h
      cases b with
      | false =>
        have h2 : (Except.ok false : Except BuildError Bool) = .ok c := h
        simp only [Except.ok.injEq] at h2
        subst h2
        rw [List.get?_eq_getElem?] at hg
        simp [allVerticesIn, List.all_cons, hg]
      | true =>
        have h2 : generalBranch sub tl = .ok c := h
        have := ih c h2
        rw [List.get?_eq_getElem?] at hg
        simp [allVerticesIn, List.all_cons, hg, this]

/-- A successful classification returns exactly the all-vertices
membership test. -/
theorem classifySimplex_ok (sub : List Bool) (vs : List ℕ) (c : Bool)
    (h : classifySimplex sub vs = .ok c) : c = allVerticesIn sub vs :=
  generalBranch_ok sub vs c (classifySimplex_eq_generalBranch sub vs ▸ h)

/-- Under membership the general loop succeeds with `true`. -/
theorem generalBranch_of_all_true (sub : List Bool) :
    ∀ vs : List ℕ, (∀ v ∈ vs, sub.get? v = some true) →
      generalBranch sub vs = .ok true := by
  intro vs
  induction vs with
  | nil => intro _; rfl
  | cons v tl ih =>
    intro h
    have hv : sub.get? v = some true := h v (List.mem_cons_self v tl)
    simp only [generalBranch, hv]
    exact ih fun u hu => h u (List.mem_cons_of_mem v hu)

/-- With a first vertex that resolves to `false`, the general loop
succeeds with `false`. -/
theorem generalBranch_of_head_false (sub : List Bool) (v : ℕ) (tl : List ℕ)
    (hv : sub.get? v = some false) :
    generalBranch sub (v :: tl) = .ok false := by
  unfold generalBranch
  rw [hv]
  rfl

/-- A successful partition is the stable filter by the all-vertices
membership test, on both sides. -/
theorem partitionSimplices_ok (sub : List Bool) :
    ∀ (xs l nl : List (List ℕ × W)), partitionSimplices sub xs = .ok (l, nl) →
      l = xs.filter (fun s => allVerticesIn sub s.1) ∧
      nl = xs.filter (fun s => !allVerticesIn sub s.1) := by
  intro xs
  induction xs with
  | nil =>
    intro l nl h
    simp only [partitionSimplices, Except.ok.injEq, Prod.mk.injEq] at h
    simp [← h.1, ← h.2]
  | cons s rest ih =>
    intro l nl h
    simp only [partitionSimplices] at h
    cases hc : classifySimplex sub s.1 with
    | error e => rw [hc] at h; exact absurd h (by simp)
    | ok c =>
      rw [hc] at h
      cases hp : partitionSimplices (W := W) sub rest with
      | error e => rw [hp] at h; exact absurd h (by simp)
      | ok p =>
        obtain ⟨l', nl'⟩ := p
        rw [hp] at h
        obtain ⟨ihl, ihnl⟩ := ih l' nl' hp
        have hcv : c = allVerticesIn sub s.1 := classifySimplex_ok sub s.1 c hc
        cases c with
        | true =>
          have h2 : (Except.ok (s :: l', nl') :
              Except BuildError (List (List ℕ × W) × List (List ℕ × W))) = .ok (l, nl) := h
          simp only [Except.ok.injEq, Prod.mk.injEq] at h2
          constructor
          · rw [← h2.1, List.filter_cons_of_pos (by simp [← hcv]), ihl]
          · rw [← h2.2, List.filter_cons_of_neg (by simp [← hcv]), ihnl]
        | false =>
          have h2 : (Except.ok (l', s :: nl') :
              Except BuildError (List (List ℕ × W) × List (List ℕ × W))) = .ok (l, nl) := h
          simp only [Except.ok.injEq, Prod.mk.injEq] at h2
          constructor
          · rw [← h2.1, List.filter_cons_of_neg (by simp [← hcv]), ihl]
          · rw [← h2.2, List.filter_cons_of_pos (by simp [← hcv]), ihnl]

/-- Membership is monotone along a set inclusion of vertex lists. -/
theorem allVerticesIn_mono (sub : List Bool) {u vs : List ℕ}
    (hsub : ∀ v ∈ u, v ∈ vs) (h : allVerticesIn sub vs = true) :
    allVerticesIn sub u = true := by
  simp only [allVerticesIn, List.all_eq_true] at *
  exact fun v hv => h v (hsub v hv)

/-- Filtering a closed tail by the membership test keeps it closed over the
correspondingly filtered seen lists: faces of an all-in simplex are all-in. -/
theorem closedFrom_filter (sub : List Bool) (xs : List (List ℕ × W)) :
    ∀ seen, closedFrom seen xs →
      closedFrom (seen.filter fun u => allVerticesIn sub u)
        (xs.filter fun s => allVerticesIn sub s.1) := by
  induction xs with
  | nil => intro seen _; simp only [List.filter_nil]; trivial
  | cons s rest ih =>
    intro seen h
    by_cases hc : allVerticesIn sub s.1 = true
    · simp only [List.filter_cons]
      rw [if_pos hc]
      refine ⟨?_, ?_⟩
      · intro f hf hpf
        obtain ⟨u, hu, he⟩ := h.1 f hf hpf
        refine ⟨u, List.mem_filter.mpr ⟨hu, ?_⟩, he⟩
        refine allVerticesIn_mono sub ?_ hc
        intro v hv
        exact hpf.2.1 v (he.1 v hv)
      · have h2 := ih (s.1 :: seen) h.2
        rwa [List.filter_cons_of_pos hc] at h2
    · simp only [List.filter_cons]
      rw [if_neg hc]
      have h2 := ih (s.1 :: seen) h.2
      rwa [List.filter_cons_of_neg hc] at h2

/-- Filtering a closed tail by the complement of the membership test stays
closed over any seen list that covers the original seen lists and every
all-in simplex of the tail. -/
theorem closedFrom_filter_not (sub : List Bool) (xs : List (List ℕ × W)) :
    ∀ seen T, closedFrom seen xs →
      (∀ f, present seen f → present T f) →
      (∀ s ∈ xs, allVerticesIn sub s.1 = true → present T s.1) →
      closedFrom T (xs.filter fun s => !allVerticesIn sub s.1) := by
  induction xs with
  | nil => intro seen T _ _ _; simp only [List.filter_nil]; trivial
  | cons s rest ih =>
    intro seen T h hST hP
    by_cases hc : allVerticesIn sub s.1 = true
    · simp only [List.filter_cons]
      rw [if_neg (by simp [hc])]
      refine ih (s.1 :: seen) T h.2 ?_ ?_
      · intro f hf
        obtain ⟨u, hu, he⟩ := hf
        rcases List.mem_cons.mp hu with h' | h'
        · subst h'
          obtain ⟨u', hu', he'⟩ := hP s (List.mem_cons_self s rest) hc
          exact ⟨u', hu', ⟨fun x hx => he.1 x (he'.1 x hx), fun x hx => he'.2 x (he.2 x hx)⟩⟩
        · exact hST f ⟨u, h', he⟩
      · intro s' hs' ha
        exact hP s' (List.mem_cons_of_mem s hs') ha
    · simp only [List.filter_cons]
      rw [if_pos (by simp [hc])]
      refine ⟨?_, ?_⟩
      · intro f hf hpf
        exact hST f (h.1 f hf hpf)
      · refine ih (s.1 :: seen) (s.1 :: T) h.2 ?_ ?_
        · intro f hf
          obtain ⟨u, hu, he⟩ := hf
          rcases List.mem_cons.mp hu with h' | h'
          · subst h'
            exact ⟨s.1, List.mem_cons_self s.1 T, he⟩
          · obtain ⟨u', hu', he'⟩ := hST f ⟨u, h', he⟩
            exact ⟨u', List.mem_cons_of_mem _ hu', he'⟩
        · intro s' hs' ha
          obtain ⟨u', hu', he'⟩ := hP s' (List.mem_cons_of_mem s hs') ha
          exact ⟨u', List.mem_cons_of_mem _ hu', he'⟩

/-- Splitting `closedFrom` across a concatenation: the tail is closed over
the head's vertex lists accumulated in reverse. -/
theorem closedFrom_append (ys zs : List (List ℕ × W)) :
    ∀ seen, closedFrom seen (ys ++ zs) ↔
      closedFrom seen ys ∧ closedFrom ((ys.map Prod.fst).reverse ++ seen) zs := by
  induction ys with
  | nil => intro seen; simp [closedFrom]
  | cons s rest ih =>
    intro seen
    rw [List.cons_append]
    show facesOK seen s.1 ∧ closedFrom (s.1 :: seen) (rest ++ zs) ↔ _
    rw [ih (s.1 :: seen)]
    constructor
    · rintro ⟨h1, h2, h3⟩
      refine ⟨⟨h1, h2⟩, ?_⟩
      simpa [List.map_cons, List.reverse_cons, List.append_assoc] using h3
    · rintro ⟨⟨h1, h2⟩, h3⟩
      refine ⟨h1, h2, ?_⟩
      simpa [List.map_cons, List.reverse_cons, List.append_assoc] using h3

/-- The only failure the general loop produces is `InvalidVertex`. -/
theorem generalBranch_error (sub : List Bool) :
    ∀ vs e, generalBranch sub vs = .error e → e = .InvalidVertex := by
  intro vs
  induction vs with
  | nil => intro e h; exact absurd h (by simp [generalBranch])
  | cons v tl ih =>
    intro e h
    simp only [generalBranch] at h
    cases hg : sub.get? v with
    | none =>
      rw [hg] at h
      have h2 : (Except.error BuildError.InvalidVertex : Except BuildError Bool) = .error e := h
      simp only [Except.error.injEq] at h2
      exact h2.symm
    | some b =>
      rw [hg] at h
      cases b with
      | false =>
        exact absurd (show (Except.ok false : Except BuildError Bool) = .error e from h) (by simp)
      | true => exact ih e h

/-- The only failure a classification produces is `InvalidVertex`. -/
theorem classifySimplex_error (sub : List Bool) (vs : List ℕ) (e : BuildError)
    (h : classifySimplex sub vs = .error e) : e = .InvalidVertex :=
  generalBranch_error sub vs e (classifySimplex_eq_generalBranch sub vs ▸ h)

/-- The only failure a partition produces is `InvalidVertex`. -/
theorem partitionSimplices_error_eq (sub : List Bool) :
    ∀ (xs : List (List ℕ × W)) e, partitionSimplices sub xs = .error e →
      e = .InvalidVertex := by
  intro xs
  induction xs with
  | nil => intro e h; exact absurd h (by simp [partitionSimplices])
  | cons s rest ih =>
    intro e h
    simp only [partitionSimplices] at h
    cases hc : classifySimplex sub s.1 with
    | error e' =>
      rw [hc] at h
      have h2 : (Except.error e' : Except BuildError
          (List (List ℕ × W) × List (List ℕ × W))) = .error e := h
      simp only [Except.error.injEq] at h2
      exact h2 ▸ classifySimplex_error sub s.1 e' hc
    | ok c =>
      rw [hc] at h
      cases hp : partitionSimplices (W := W) sub rest with
      | error e' =>
        rw [hp] at h
        have h2 : (Except.error e' : Except BuildError
            (List (List ℕ × W) × List (List ℕ × W))) = .error e := h
        simp only [Except.error.injEq] at h2
        exact h2 ▸ ih e' hp
      | ok p =>
        obtain ⟨l', nl'⟩ := p
        rw [hp] at h
        cases c with
        | true =>
          exact absurd (show (Except.ok (s :: l', nl') : Except BuildError
            (List (List ℕ × W) × List (List ℕ × W))) = .error e from h) (by simp)
        | false =>
          exact absurd (show (Except.ok (l', s :: nl') : Except BuildError
            (List (List ℕ × W) × List (List ℕ × W))) = .error e from h) (by simp)

/-- The partition aborts exactly when some entry's classification aborts. -/
theorem partitionSimplices_error_iff (sub : List Bool) :
    ∀ xs : List (List ℕ × W),
      partitionSimplices sub xs = .error .InvalidVertex ↔
      ∃ s ∈ xs, classifySimplex sub s.1 = .error .InvalidVertex := by
  intro xs
  induction xs with
  | nil =>
    constructor
    · intro h; exact absurd h (by simp [partitionSimplices])
    · rintro ⟨s, hs, -⟩; exact absurd hs (List.not_mem_nil s)
  | cons s rest ih =>
    constructor
    · intro h
      simp only [partitionSimplices] at h
      cases hc : classifySimplex sub s.1 with
      | error e' =>
        have he' : e' = .InvalidVertex := classifySimplex_error sub s.1 e' hc
        exact ⟨s, List.mem_cons_self s rest, he' ▸ hc⟩
      | ok c =>
        rw [hc] at h
        cases hp : partitionSimplices (W := W) sub rest with
        | error e' =>
          have he' : e' = .InvalidVertex := partitionSimplices_error_eq sub rest e' hp
          obtain ⟨s', hs', h''⟩ := ih.mp (he' ▸ hp)
          exact ⟨s', List.mem_cons_of_mem s hs', h''⟩
        | ok p =>
          obtain ⟨l', nl'⟩ := p
          rw [hp] at h
          cases c with
          | true =>
            exact absurd (show (Except.ok (s :: l', nl') : Except BuildError
              (List (List ℕ × W) × List (List ℕ × W))) = .error _ from h) (by simp)
          | false =>
            exact absurd (show (Except.ok (l', s :: nl') : Except BuildError
              (List (List ℕ × W) × List (List ℕ × W))) = .error _ from h) (by simp)
    · rintro ⟨s', hs', h'⟩
      rcases List.mem_cons.mp hs' with rfl | hmem
      · show partitionSimplices sub (s' :: rest) = _
        unfold partitionSimplices
        rw [h']
      · unfold partitionSimplices
        cases hc : classifySimplex sub s.1 with
        | error e' =>
          have he' : e' = .InvalidVertex := classifySimplex_error sub s.1 e' hc
          rw [he']
        | ok c =>
          have hrest : partitionSimplices (W := W) sub rest = .error .InvalidVertex :=
            ih.mpr ⟨s', hmem, h'⟩
          rw [hrest]

/-- The general loop aborts exactly when it reaches an out-of-domain vertex:
some leading segment of the vertex list resolves entirely to `true` and the
next vertex id is outside the predicate's domain. -/
theorem generalBranch_error_iff (sub : List Bool) :
    ∀ vs : List ℕ, generalBranch sub vs = .error .InvalidVertex ↔
      ∃ pre v post, vs = pre ++ v :: post ∧
        (∀ u ∈ pre, sub.get? u = some true) ∧ sub.get? v = none := by
  intro vs
  induction vs with
  | nil =>
    constructor
    · intro h; exact absurd h (by simp [generalBranch])
    · rintro ⟨pre, v, post, heq, -, -⟩
      exact absurd heq (by simp)
  | cons u tl ih =>
    constructor
    · intro h
      simp only [generalBranch] at h
      cases hg : sub.get? u with
      | none => exact ⟨[], u, tl, rfl, by simp, hg⟩
      | some b =>
        rw [hg] at h
        cases b with
        | false =>
          exact absurd (show (Except.ok false : Except BuildError Bool) = .error _ from h)
            (by simp)
        | true =>
          obtain ⟨pre, v, post, heq, hpre, hv⟩ := ih.mp h
          refine ⟨u :: pre, v, post, by rw [List.cons_append, heq], ?_, hv⟩
          intro x hx
          rcases List.mem_cons.mp hx with rfl | hx'
          · exact hg
          · exact hpre x hx'
    · rintro ⟨pre, v, post, heq, hpre, hv⟩
      cases pre with
      | nil =>
        simp only [List.nil_append] at heq
        injection heq with h1 h2
        subst h1; subst h2
        unfold generalBranch
        rw [hv]
      | cons p ptl =>
        rw [List.cons_append] at heq
        injection heq with h1 h2
        subst h1
        have hp : sub.get? u = some true := hpre u (List.mem_cons_self u ptl)
        have htl : generalBranch sub tl = .error .InvalidVertex := by
          refine ih.mpr ⟨ptl, v, post, h2, ?_, hv⟩
          intro x hx
          exact hpre x (List.mem_cons_of_mem u hx)
        unfold generalBranch
        rw [hp, htl]
        rfl

/-- A classification aborts exactly when it reaches an out-of-domain vertex. -/
theorem classifySimplex_error_iff (sub : List Bool) (vs : List ℕ) :
    classifySimplex sub vs = .error .InvalidVertex ↔
      ∃ pre v post, vs = pre ++ v :: post ∧
        (∀ u ∈ pre, sub.get? u = some true) ∧ sub.get? v = none := by
  rw [classifySimplex_eq_generalBranch]
  exact generalBranch_error_iff sub vs

/-- When every referenced vertex resolves to `true`, the partition puts
everything into `L`. -/
theorem partitionSimplices_all_true (sub : List Bool) :
    ∀ xs : List (List ℕ × W), (∀ s ∈ xs, ∀ v ∈ s.1, sub.get? v = some true) →
      partitionSimplices sub xs = .ok (xs, []) := by
  intro xs
  induction xs with
  | nil => intro _; rfl
  | cons s rest ih =>
    intro h
    have hc : classifySimplex sub s.1 = .ok true := by
      rw [classifySimplex_eq_generalBranch]
      exact generalBranch_of_all_true sub s.1 (h s (List.mem_cons_self s rest))
    have hr := ih fun s' hs' => h s' (List.mem_cons_of_mem s hs')
    unfold partitionSimplices
    rw [hc, hr]
    rfl

/-- When every referenced vertex resolves to `false` and every simplex is
nonempty, the partition puts everything into `not_L`. -/
theorem partitionSimplices_all_false (sub : List Bool) :
    ∀ xs : List (List ℕ × W), (∀ s ∈ xs, s.1 ≠ []) →
      (∀ s ∈ xs, ∀ v ∈ s.1, sub.get? v = some false) →
      partitionSimplices sub xs = .ok ([], xs) := by
  intro xs
  induction xs with
  | nil => intro _ _; rfl
  | cons s rest ih =>
    intro hne h
    obtain ⟨v, tl, hvt⟩ : ∃ v tl, s.1 = v :: tl := by
      cases hs1 : s.1 with
      | nil => exact absurd hs1 (hne s (List.mem_cons_self s rest))
      | cons v tl => exact ⟨v, tl, rfl⟩
    have hc : classifySimplex sub s.1 = .ok false := by
      rw [classifySimplex_eq_generalBranch, hvt]
      refine generalBranch_of_head_false sub v tl ?_
      exact h s (List.mem_cons_self s rest) v (by rw [hvt]; exact List.mem_cons_self v tl)
    have hr := ih (fun s' hs' => hne s' (List.mem_cons_of_mem s hs'))
      (fun s' hs' => h s' (List.mem_cons_of_mem s hs'))
    unfold partitionSimplices
    rw [hc, hr]
    rfl

/-- C1: a successful partition places an entry in `L` exactly when every
one of its vertices satisfies the membership predicate and in `not_L`
otherwise (stably, as the two filters of the input), and a single-vertex
simplex is classified by its one vertex alone. -/
theorem C1_partition_membership (sub : List Bool) (xs l nl : List (List ℕ × W))
    (hok : partitionSimplices sub xs = .ok (l, nl)) :
    l = xs.filter (fun s => allVerticesIn sub s.1) ∧
    nl = xs.filter (fun s => !allVerticesIn sub s.1) ∧
    (∀ s, s ∈ l ↔ s ∈ xs ∧ allVerticesIn sub s.1 = true) ∧
    (∀ v : ℕ, allVerticesIn sub [v] = (sub.get? v == some true)) := by
  obtain ⟨hl, hnl⟩ := partitionSimplices_ok sub xs l nl hok
  refine ⟨hl, hnl, ?_, ?_⟩
  · intro s
    rw [hl, List.mem_filter]
  · intro v
    simp [allVerticesIn]

/-- C1 witness: the concrete scenario with predicate membership
`[true, true, false]`. -/
theorem C1_witness :
    [([0], (0 : ℕ)), ([1], 0), ([0, 1], 1)] =
      List.filter (fun s => allVerticesIn [true, true, false] s.1)
        [([0], (0 : ℕ)), ([1], 0), ([2], 0), ([0, 1], 1), ([0, 2], 2)] ∧
    (([0, 1], (1 : ℕ)) ∈ [([0], (0 : ℕ)), ([1], 0), ([0, 1], 1)] ↔
      ([0, 1], (1 : ℕ)) ∈ [([0], (0 : ℕ)), ([1], 0), ([2], 0), ([0, 1], 1), ([0, 2], 2)] ∧
        allVerticesIn [true, true, false] [0, 1] = true) ∧
    allVerticesIn [true, true, false] [2] = (List.get? [true, true, false] 2 == some true) :=
  have h := C1_partition_membership [true, true, false]
    [([0], (0 : ℕ)), ([1], 0), ([2], 0), ([0, 1], 1), ([0, 2], 2)]
    [([0], (0 : ℕ)), ([1], 0), ([0, 1], 1)]
    [([2], (0 : ℕ)), ([0, 2], 2)] (by rfl)
  ⟨h.1, h.2.2.1 ([0, 1], (1 : ℕ)), h.2.2.2 2⟩

/-- C2: when the input filtration satisfies the closure invariant, the
sub-complex sequence `L` of a successful partition satisfies it as well. -/
theorem C2_L_closed (sub : List Bool) (xs l nl : List (List ℕ × W))
    (hok : partitionSimplices sub xs = .ok (l, nl)) (hcl : closureInv xs) :
    closureInv l := by
  obtain ⟨hl, -⟩ := partitionSimplices_ok sub xs l nl hok
  subst hl
  have h := closedFrom_filter sub xs [] hcl
  simpa [closureInv] using h

/-- C2 witness: the sub-complex of the concrete scenario is itself a valid
filtration. -/
theorem C2_witness : closureInv [([0], (0 : ℕ)), ([1], 0), ([0, 1], 1)] :=
  C2_L_closed [true, true, false]
    [([0], (0 : ℕ)), ([1], 0), ([2], 0), ([0, 1], 1), ([0, 2], 2)]
    [([0], (0 : ℕ)), ([1], 0), ([0, 1], 1)]
    [([2], (0 : ℕ)), ([0, 2], 2)] (by rfl) (by decide)

/-- C3: the re-ordered full sequence is the concatenation `L ++ not_L`,
its length-`|L|` front is exactly `L`, the rest is `not_L`, and each part
keeps the original relative order of the input. -/
theorem C3_K_concat (sub : List Bool) (xs l nl : List (List ℕ × W))
    (hok : partitionSimplices sub xs = .ok (l, nl)) :
    buildK l nl = l ++ nl ∧
    (buildK l nl).take l.length = l ∧
    (buildK l nl).drop l.length = nl ∧
    List.Sublist l xs ∧ List.Sublist nl xs := by
  obtain ⟨hl, hnl⟩ := partitionSimplices_ok sub xs l nl hok
  refine ⟨rfl, List.take_left l nl, List.drop_left l nl, ?_, ?_⟩
  · rw [hl]; exact List.filter_sublist xs
  · rw [hnl]; exact List.filter_sublist xs

/-- C3 witness: the concatenation facts at the concrete scenario. -/
theorem C3_witness :
    buildK [([0], (0 : ℕ)), ([1], 0), ([0, 1], 1)] [([2], (0 : ℕ)), ([0, 2], 2)] =
      [([0], (0 : ℕ)), ([1], 0), ([0, 1], 1)] ++ [([2], (0 : ℕ)), ([0, 2], 2)] ∧
    (buildK [([0], (0 : ℕ)), ([1], 0), ([0, 1], 1)] [([2], (0 : ℕ)), ([0, 2], 2)]).take 3 =
      [([0], (0 : ℕ)), ([1], 0), ([0, 1], 1)] ∧
    List.Sublist [([2], (0 : ℕ)), ([0, 2], 2)]
      [([0], (0 : ℕ)), ([1], 0), ([2], 0), ([0, 1], 1), ([0, 2], 2)] :=
  have h := C3_K_concat [true, true, false]
    [([0], (0 : ℕ)), ([1], 0), ([2], 0), ([0, 1], 1), ([0, 2], 2)]
    [([0], (0 : ℕ)), ([1], 0), ([0, 1], 1)]
    [([2], (0 : ℕ)), ([0, 2], 2)] (by rfl)
  ⟨h.1, h.2.1, h.2.2.2.2⟩

/-- C4: the re-ordered full sequence `K = L ++ not_L` of a successful
partition satisfies the closure invariant whenever the input does. -/
theorem C4_K_closed (sub : List Bool) (xs l nl : List (List ℕ × W))
    (hok : partitionSimplices sub xs = .ok (l, nl)) (hcl : closureInv xs) :
    closureInv (buildK l nl) := by
  obtain ⟨hl, hnl⟩ := partitionSimplices_ok sub xs l nl hok
  subst hl; subst hnl
  show closedFrom [] _
  rw [buildK, closedFrom_append]
  constructor
  · have h := closedFrom_filter sub xs [] hcl
    simpa using h
  · refine closedFrom_filter_not sub xs [] _ hcl ?_ ?_
    · rintro f ⟨u, hu, -⟩
      exact absurd hu (List.not_mem_nil u)
    · intro s hs ha
      refine ⟨s.1, ?_, fun x hx => hx, fun x hx => hx⟩
      simp only [List.append_nil, List.mem_reverse, List.mem_map]
      exact ⟨s, List.mem_filter.mpr ⟨hs, ha⟩, rfl⟩

/-- C4 witness: the re-ordered complex of the concrete scenario is a valid
filtration. -/
theorem C4_witness :
    closureInv (buildK [([0], (0 : ℕ)), ([1], 0), ([0, 1], 1)]
      [([2], (0 : ℕ)), ([0, 2], 2)]) :=
  C4_K_closed [true, true, false]
    [([0], (0 : ℕ)), ([1], 0), ([2], 0), ([0, 1], 1), ([0, 2], 2)]
    [([0], (0 : ℕ)), ([1], 0), ([0, 1], 1)]
    [([2], (0 : ℕ)), ([0, 2], 2)] (by rfl) (by decide)

/-- C5: a successful partition is exact: the lengths add up to the input
length and `L ++ not_L` is a permutation of the input, so no entry is
omitted, duplicated, or placed on both sides. -/
theorem C5_partition_exact (sub : List Bool) (xs l nl : List (List ℕ × W))
    (hok : partitionSimplices sub xs = .ok (l, nl)) :
    l.length + nl.length = xs.length ∧ List.Perm (l ++ nl) xs := by
  obtain ⟨hl, hnl⟩ := partitionSimplices_ok sub xs l nl hok
  subst hl; subst hnl
  have hperm := List.filter_append_perm (fun s => allVerticesIn sub s.1) xs
  exact ⟨by simpa using hperm.length_eq, hperm⟩

/-- C5 witness: the counting and permutation facts at the concrete
scenario. -/
theorem C5_witness :
    (3 : ℕ) + 2 = 5 ∧
    List.Perm ([([0], (0 : ℕ)), ([1], 0), ([0, 1], 1)] ++ [([2], (0 : ℕ)), ([0, 2], 2)])
      [([0], (0 : ℕ)), ([1], 0), ([2], 0), ([0, 1], 1), ([0, 2], 2)] :=
  C5_partition_exact [true, true, false]
    [([0], (0 : ℕ)), ([1], 0), ([2], 0), ([0, 1], 1), ([0, 2], 2)]
    [([0], (0 : ℕ)), ([1], 0), ([0, 1], 1)]
    [([2], (0 : ℕ)), ([0, 2], 2)] (by rfl)

/-- C6: filtration ids are assigned purely by position, both in `L` and in
the re-ordered full sequence, and every indexed entry keeps its original
simplex paired with its weight. -/
theorem C6_id_assignment (sub : List Bool) (xs l nl : List (List ℕ × W))
    (hok : partitionSimplices sub xs = .ok (l, nl)) :
    (indexFiltration l).length = l.length ∧
    (indexFiltration (buildK l nl)).length = l.length + nl.length ∧
    (∀ i, (indexFiltration l).get? i = (l.get? i).map fun s => (i, s)) ∧
    (∀ i, (indexFiltration (buildK l nl)).get? i =
      ((buildK l nl).get? i).map fun s => (i, s)) := by
  refine ⟨?_, ?_, ?_, ?_⟩
  · simp [indexFiltration, List.enum_length]
  · simp [indexFiltration, buildK, List.enum_length]
  · intro i
    simp [indexFiltration, List.get?_eq_getElem?, List.getElem?_enum]
  · intro i
    simp [indexFiltration, List.get?_eq_getElem?, List.getElem?_enum]

/-- C6 witness: positional ids at the concrete scenario, sampled at
positions 2 of `L` and 4 of `K`. -/
theorem C6_witness :
    (indexFiltration [([0], (0 : ℕ)), ([1], 0), ([0, 1], 1)]).length = 3 ∧
    (indexFiltration [([0], (0 : ℕ)), ([1], 0), ([0, 1], 1)]).get? 2 =
      (List.get? [([0], (0 : ℕ)), ([1], 0), ([0, 1], 1)] 2).map (fun s => (2, s)) ∧
    (indexFiltration (buildK [([0], (0 : ℕ)), ([1], 0), ([0, 1], 1)]
        [([2], (0 : ℕ)), ([0, 2], 2)])).get? 4 =
      (List.get? (buildK [([0], (0 : ℕ)), ([1], 0), ([0, 1], 1)]
        [([2], (0 : ℕ)), ([0, 2], 2)]) 4).map (fun s => (4, s)) :=
  have h := C6_id_assignment [true, true, false]
    [([0], (0 : ℕ)), ([1], 0), ([2], 0), ([0, 1], 1), ([0, 2], 2)]
    [([0], (0 : ℕ)), ([1], 0), ([0, 1], 1)]
    [([2], (0 : ℕ)), ([0, 2], 2)] (by rfl)
  ⟨h.1, h.2.2.1 2, h.2.2.2 4⟩

/-- C7 (amended): the build aborts with `LengthMismatch` exactly when the
two input sequences differ in length; with matching lengths it aborts with
`InvalidVertex` exactly when the classification of some entry reaches an
out-of-domain vertex id, i.e. all vertices before it in that entry's list
resolve to `true` and the next one is outside the predicate's domain.  An
aborted build returns no result. -/
theorem C7_error_handling (simplices : List (List ℕ)) (weights : List W) (sub : List Bool) :
    (build_pair simplices weights sub = .error .LengthMismatch ↔
      simplices.length ≠ weights.length) ∧
    (simplices.length = weights.length →
      (build_pair simplices weights sub = .error .InvalidVertex ↔
        ∃ s ∈ simplices.zip weights, ∃ pre v post, s.1 = pre ++ v :: post ∧
          (∀ u ∈ pre, sub.get? u = some true) ∧ sub.get? v = none)) := by
  by_cases hlen : simplices.length = weights.length
  · constructor
    · constructor
      · intro h
        exfalso
        unfold build_pair at h
        rw [if_pos hlen] at h
        cases hp : partitionSimplices (W := W) sub (simplices.zip weights) with
        | error e =>
          rw [hp] at h
          have h2 : (Except.error e : Except BuildError
              (List (ℕ × (List ℕ × W)) × List (ℕ × (List ℕ × W)))) =
            .error .LengthMismatch := h
          simp only [Except.error.injEq] at h2
          have h3 := partitionSimplices_error_eq sub _ e hp
          rw [h2] at h3
          exact BuildError.noConfusion h3
        | ok p =>
          obtain ⟨l, nl⟩ := p
          rw [hp] at h
          exact absurd (show (Except.ok (indexFiltration l, indexFiltration (buildK l nl)) :
            Except BuildError _) = .error _ from h) (by simp)
      · intro h; exact absurd hlen h
    · intro _
      constructor
      · intro h
        unfold build_pair at h
        rw [if_pos hlen] at h
        cases hp : partitionSimplices (W := W) sub (simplices.zip weights) with
        | error e =>
          rw [hp] at h
          have h2 : (Except.error e : Except BuildError
              (List (ℕ × (List ℕ × W)) × List (ℕ × (List ℕ × W)))) =
            .error .InvalidVertex := h
          simp only [Except.error.injEq] at h2
          subst h2
          obtain ⟨s, hs, hcs⟩ := (partitionSimplices_error_iff sub _).mp hp
          obtain ⟨pre, v, post, h3, h4, h5⟩ := (classifySimplex_error_iff sub s.1).mp hcs
          exact ⟨s, hs, pre, v, post, h3, h4, h5⟩
        | ok p =>
          obtain ⟨l, nl⟩ := p
          rw [hp] at h
          exact absurd (show (Except.ok (indexFiltration l, indexFiltration (buildK l nl)) :
            Except BuildError _) = .error _ from h) (by simp)
      · rintro ⟨s, hs, pre, v, post, h3, h4, h5⟩
        have hcs : classifySimplex sub s.1 = .error .InvalidVertex :=
          (classifySimplex_error_iff sub s.1).mpr ⟨pre, v, post, h3, h4, h5⟩
        have hp : partitionSimplices sub (simplices.zip weights) = .error .InvalidVertex :=
          (partitionSimplices_error_iff sub _).mpr ⟨s, hs, hcs⟩
        unfold build_pair
        rw [if_pos hlen, hp]
  · constructor
    · constructor
      · intro _; exact hlen
      · intro _
        unfold build_pair
        rw [if_neg hlen]
    · intro h; exact absurd h hlen

/-- C7 counterexample: the entry `[0, 5]` references vertex id 5, which is
outside the domain of the predicate `[false]`, yet the build succeeds: the
classification breaks at vertex 0 before ever inspecting vertex 5, so no
`InvalidVertex` failure is raised. -/
theorem C7_counterexample :
    List.get? [false] 5 = none ∧
    (5 : ℕ) ∈ [0, 5] ∧
    build_pair [[0, 5]] [(0 : ℕ)] [false] = .ok ([], [(0, ([0, 5], (0 : ℕ)))]) :=
  ⟨rfl, by decide, rfl⟩

/-- C7 witness: both failure modes at concrete inputs: a length mismatch,
and an out-of-domain vertex that is actually reached. -/
theorem C7_witness :
    build_pair [[0]] ([] : List ℕ) [true] = .error .LengthMismatch ∧
    build_pair [[3]] [(0 : ℕ)] [true] = .error .InvalidVertex :=
  ⟨(C7_error_handling [[0]] ([] : List ℕ) [true]).1.mpr (by decide),
   ((C7_error_handling [[3]] [(0 : ℕ)] [true]).2 (by decide)).mpr
     ⟨([3], (0 : ℕ)), by decide, [], 3, [], rfl, by simp, by decide⟩⟩

/-- C8: boundary behaviour: the empty filtration yields empty `L` and `K`
with no error; a predicate satisfied by every referenced vertex returns the
input as `L` with empty `not_L`; a predicate satisfied by no referenced
vertex returns empty `L` and `K` equal to the input in unchanged order. -/
theorem C8_boundary (sub : List Bool) (xs : List (List ℕ × W)) :
    (partitionSimplices sub ([] : List (List ℕ × W)) = .ok ([], []) ∧
      buildK ([] : List (List ℕ × W)) [] = []) ∧
    ((∀ s ∈ xs, ∀ v ∈ s.1, sub.get? v = some true) →
      partitionSimplices sub xs = .ok (xs, []) ∧ buildK xs ([] : List (List ℕ × W)) = xs) ∧
    ((∀ s ∈ xs, s.1 ≠ []) → (∀ s ∈ xs, ∀ v ∈ s.1, sub.get? v = some false) →
      partitionSimplices sub xs = .ok ([], xs) ∧ buildK ([] : List (List ℕ × W)) xs = xs) := by
  refine ⟨⟨rfl, rfl⟩, fun h => ⟨partitionSimplices_all_true sub xs h, by simp [buildK]⟩,
    fun hne h => ⟨partitionSimplices_all_false sub xs hne h, by simp [buildK]⟩⟩

/-- C8 witness: the three boundary cases at concrete inputs. -/
theorem C8_witness :
    (partitionSimplices [true] [([0], (0 : ℕ))] = .ok ([([0], (0 : ℕ))], []) ∧
      buildK [([0], (0 : ℕ))] [] = [([0], (0 : ℕ))]) ∧
    (partitionSimplices [false] [([0], (0 : ℕ))] = .ok ([], [([0], (0 : ℕ))]) ∧
      buildK ([] : List (List ℕ × ℕ)) [([0], (0 : ℕ))] = [([0], (0 : ℕ))]) ∧
    (partitionSimplices [true] ([] : List (List ℕ × ℕ)) = .ok ([], []) ∧
      buildK ([] : List (List ℕ × ℕ)) [] = []) :=
  ⟨(C8_boundary [true] [([0], (0 : ℕ))]).2.1 (by decide),
   (C8_boundary [false] [([0], (0 : ℕ))]).2.2 (by decide) (by decide),
   (C8_boundary [true] ([] : List (List ℕ × ℕ))).1⟩

/-- C9: the builder is a pure function of its three inputs: equal simplex
sequences, weight sequences, and membership predicates give identical
results, with no dependence on hidden state. -/
theorem C9_deterministic (s1 s2 : List (List ℕ)) (w1 w2 : List W) (m1 m2 : List Bool)
    (hs : s1 = s2) (hw : w1 = w2) (hm : m1 = m2) :
    build_pair s1 w1 m1 = build_pair s2 w2 m2 := by
  subst hs; subst hw; subst hm
  rfl

/-- C9 witness: two runs on the same concrete input agree. -/
theorem C9_witness :
    build_pair [[0]] [(0 : ℕ)] [true] = build_pair [[0]] [(0 : ℕ)] [true] :=
  C9_deterministic [[0]] [[0]] [(0 : ℕ)] [(0 : ℕ)] [true] [true] rfl rfl rfl

/-- C10: the source's dimension split is equivalent to running the general
all-vertices loop on every simplex: the classification, and hence the
`L` / `not_L` placement, is unchanged. -/
theorem C10_branch_equivalence (sub : List Bool) (vs : List ℕ) :
    classifySimplex sub vs = generalBranch sub vs :=
  classifySimplex_eq_generalBranch sub vs

end Oineus
